import Mathlib

/-!
Verification development for the miaopacks resource-pack conversion engine
(`src/miaopacks.py`).

The engine is shallowly embedded: version strings are Lean `String`s, the
numeric version key computed by the Python code via
`float(version.replace("1.", ""))` is embedded as an exact scaled decimal
(`PyFloat`, the value `num / 10 ^ scale` represented by an integer numerator
and a power-of-ten scale), file trees are finite maps from path strings to
decoded raster images, and the resolver's `while` loop is embedded with an
explicit fuel argument together with a proof that the fuel bound is never hit
(the loop always exits).

Python `float` values on the decimal strings handled by the program are
idealised as exact rationals; `PyFloat.toRat` maps the scaled-decimal
representation into `ℚ` and the comparison relations `pfLt`/`pfLe`/`pfEq`
are proved to agree with the rational order, so every ordering statement
below is a statement about the numeric value of the key.
-/

namespace Miaopacks

/-- Python `version.replace("1.", "")`: delete every (leftmost-first,
non-overlapping) occurrence of the two-character substring `"1."`.
This is the exact semantics of `str.replace` as used at
`src/miaopacks.py:67,118,119,126,131` — it does not only strip a leading
prefix. -/
def stripAllOneDot : List Char → List Char
  | [] => []
  | [c] => [c]
  | c :: d :: rest =>
    if c = '1' ∧ d = '.' then stripAllOneDot rest
    else c :: stripAllOneDot (d :: rest)

/-- Whether the two-character substring `"1."` occurs anywhere in the list. -/
def hasOneDot : List Char → Bool
  | [] => false
  | [_] => false
  | c :: d :: rest => (c = '1' && d = '.') || hasOneDot (d :: rest)

/-- Decimal digits to a natural number, as Python `int` parsing does. -/
def digitsToNat (ds : List Char) : Nat :=
  ds.foldl (fun n c => n * 10 + (c.toNat - 48)) 0

/-- Split a character list on `'.'`, like Python `str.split('.')`. -/
def splitDot : List Char → List (List Char)
  | [] => [[]]
  | '.' :: rest => [] :: splitDot rest
  | c :: rest =>
    match splitDot rest with
    | p :: ps => (c :: p) :: ps
    | [] => [[c]]

/-- Nonempty and all decimal digits. -/
def isDigits (ds : List Char) : Bool := !ds.isEmpty && ds.all Char.isDigit

/-- Exact value of a finite decimal: the rational `num / 10 ^ scale`.
This embeds the Python `float` produced by parsing a decimal string
(idealising the IEEE double as the exact decimal it denotes). -/
structure PyFloat where
  num : Int
  scale : Nat
deriving DecidableEq, Repr

/-- Numeric value of a `PyFloat` as a rational. -/
def PyFloat.toRat (a : PyFloat) : ℚ := (a.num : ℚ) / 10 ^ a.scale

/-- Numeric strict order on scaled decimals, by cross multiplication. -/
def pfLt (a b : PyFloat) : Prop := a.num * 10 ^ b.scale < b.num * 10 ^ a.scale

/-- Numeric non-strict order on scaled decimals. -/
def pfLe (a b : PyFloat) : Prop := a.num * 10 ^ b.scale ≤ b.num * 10 ^ a.scale

/-- Numeric equality on scaled decimals (Python `==` / `!=` on floats). -/
def pfEq (a b : PyFloat) : Prop := a.num * 10 ^ b.scale = b.num * 10 ^ a.scale

instance (a b : PyFloat) : Decidable (pfLt a b) := by unfold pfLt; infer_instance

instance (a b : PyFloat) : Decidable (pfLe a b) := by unfold pfLe; infer_instance

instance (a b : PyFloat) : Decidable (pfEq a b) := by unfold pfEq; infer_instance

lemma pfLt_iff_toRat {a b : PyFloat} : pfLt a b ↔ a.toRat < b.toRat := by
  unfold pfLt PyFloat.toRat
  rw [div_lt_div_iff₀ (by positivity) (by positivity)]
  constructor <;> intro h <;> exact_mod_cast h

lemma pfLe_iff_toRat {a b : PyFloat} : pfLe a b ↔ a.toRat ≤ b.toRat := by
  unfold pfLe PyFloat.toRat
  rw [div_le_div_iff₀ (by positivity) (by positivity)]
  constructor <;> intro h <;> exact_mod_cast h

lemma pfEq_iff_toRat {a b : PyFloat} : pfEq a b ↔ a.toRat = b.toRat := by
  unfold pfEq PyFloat.toRat
  rw [div_eq_div_iff (by positivity) (by positivity)]
  constructor <;> intro h <;> exact_mod_cast h

/-- Parse an unsigned decimal string (digit part, optional dot, digit part;
at least one digit overall), as Python `float()` accepts for the strings
this program produces. Returns `none` where Python would raise
`ValueError` (empty string, several dots, non-digit characters). -/
def pyFloatBody : List Char → Option PyFloat := fun cs =>
  match splitDot cs with
  | [ip] => if isDigits ip then some ⟨(digitsToNat ip : Int), 0⟩ else none
  | [ip, fp] =>
    if ip.all Char.isDigit && fp.all Char.isDigit && !(ip.isEmpty && fp.isEmpty)
    then some ⟨(digitsToNat ip * 10 ^ fp.length + digitsToNat fp : Int), fp.length⟩
    else none
  | _ => none

/-- Python `float()` on a character list, with an optional sign. -/
def pyFloatChars : List Char → Option PyFloat
  | '-' :: rest => (pyFloatBody rest).map fun p => ⟨-p.num, p.scale⟩
  | '+' :: rest => pyFloatBody rest
  | cs => pyFloatBody cs

/-- The numeric version key the resolver computes:
`float(version.replace("1.", ""))` (`src/miaopacks.py:118,119,126,131`).
Returns `none` where Python `float()` would raise. -/
def pyKey (v : String) : Option PyFloat := pyFloatChars (stripAllOneDot v.data)

/-- Modelled from the spec's words for comparison (claim about the key
being obtained by "removing only the leading literal `1.` prefix"): strip
one leading `"1."` if present and parse the remainder. -/
def leadStrippedKey (v : String) : Option PyFloat :=
  match v.data with
  | '1' :: '.' :: rest => pyFloatChars rest
  | cs => pyFloatChars cs

lemma stripAllOneDot_of_no_occurrence :
    ∀ cs : List Char, hasOneDot cs = false → stripAllOneDot cs = cs := by
  intro cs
  induction cs using stripAllOneDot.induct with
  | case1 => intro _; rfl
  | case2 c => intro _; rfl
  | case3 c d rest hcd ih =>
    intro h
    obtain ⟨h1, h2⟩ := hcd
    subst h1; subst h2
    simp [hasOneDot] at h
  | case4 c d rest hcd ih =>
    intro h
    have h' : hasOneDot (d :: rest) = false := by
      cases rest with
      | nil => rfl
      | cons e tail =>
        simp only [hasOneDot, Bool.or_eq_false_iff] at h ⊢
        exact h.2
    simp only [stripAllOneDot, if_neg hcd]
    rw [ih h']

/-- C6 counterexample: at the registered-format version string `"1.21.1"`,
the key the code computes is `21` (every occurrence of `"1."` is removed by
`str.replace`, so the trailing `".1"` collapses), while removing only the
leading `"1."` prefix yields `21.1`; the two numeric values differ. -/
theorem versionKey_not_leading_strip_only :
    pyKey "1.21.1" = some ⟨21, 0⟩ ∧
    leadStrippedKey "1.21.1" = some ⟨211, 1⟩ ∧
    ¬ pfEq ⟨21, 0⟩ ⟨211, 1⟩ ∧
    (PyFloat.toRat ⟨21, 0⟩ ≠ PyFloat.toRat ⟨211, 1⟩) := by
  refine ⟨by decide, by decide, by decide, fun h => absurd (pfEq_iff_toRat.mpr h) (by decide)⟩

/-- C6 amended: the resolver's key is the decimal parse of the version
string with every occurrence of the substring `"1."` removed
(leftmost-first, non-overlapping, the semantics of Python `str.replace`);
whenever the remainder after the leading `"1."` contains no further
occurrence of `"1."` (for example `"1.19.4"`), this coincides with
removing only the leading prefix. -/
theorem versionKey_strip_semantics (v : String) (rest : List Char)
    (hv : v.data = '1' :: '.' :: rest) (hno : hasOneDot rest = false) :
    pyKey v = pyFloatChars rest ∧ pyKey v = leadStrippedKey v := by
  have hstrip : stripAllOneDot v.data = rest := by
    rw [hv]
    show (if ('1' : Char) = '1' ∧ ('.' : Char) = '.' then stripAllOneDot rest
          else '1' :: stripAllOneDot ('.' :: rest)) = rest
    rw [if_pos ⟨rfl, rfl⟩]
    exact stripAllOneDot_of_no_occurrence rest hno
  constructor
  · unfold pyKey
    rw [hstrip]
  · unfold pyKey leadStrippedKey
    rw [hstrip, hv]
    rfl

/-- Witness for the amended C6 statement at the version string `"1.19.4"`:
the remainder `"19.4"` has no further `"1."` occurrence and the key is
`19.4` under both readings. -/
theorem versionKey_strip_semantics_witness :
    pyKey "1.19.4" = pyFloatChars ['1', '9', '.', '4'] ∧
    pyKey "1.19.4" = leadStrippedKey "1.19.4" :=
  versionKey_strip_semantics "1.19.4" ['1', '9', '.', '4'] (by decide) (by decide)

/-- Pair every registered version string (a key of the `configs` dict built
by `load_version_configs`) with its numeric key, failing like Python
`float()` does inside the resolver loop if any registered version string
does not parse (`src/miaopacks.py:131`). -/
def keyedList : List String → Option (List (String × PyFloat))
  | [] => some []
  | v :: vs =>
    match pyKey v, keyedList vs with
    | some k, some rest => some ((v, k) :: rest)
    | _, _ => none

/-- The candidate test of the resolver loop (`src/miaopacks.py:134,139`):
ascending, a registered key qualifies when it is strictly above the current
key and at most the target key; descending, strictly below the current key
and at least the target key. -/
def isCand (asc : Bool) (cur tk k : PyFloat) : Bool :=
  match asc with
  | true => decide (pfLt cur k) && decide (pfLe k tk)
  | false => decide (pfLt k cur) && decide (pfLe tk k)

/-- The tie-breaking test against the best candidate so far
(`next_num` starts at ±infinity, strict comparison, so the first
registered version with the nearest key wins). -/
def beats (asc : Bool) (k : PyFloat) : Option (String × PyFloat) → Bool
  | none => true
  | some q =>
    match asc with
    | true => decide (pfLt k q.2)
    | false => decide (pfLt q.2 k)

/-- One pass of the inner `for version, config in configs.items()` loop
(`src/miaopacks.py:130-141`): the qualifying registered version whose key
is numerically nearest to the current key, if any. -/
def selectNext (keyed : List (String × PyFloat)) (asc : Bool) (cur tk : PyFloat) :
    Option (String × PyFloat) :=
  keyed.foldl
    (fun best p => if isCand asc cur tk p.2 && beats asc p.2 best then some p else best)
    none

/-- The outer `while float(current_version...) != target_num` loop
(`src/miaopacks.py:126-146`), with an explicit fuel argument; the fuel
bound is proved sufficient below (`resolveLoop_stable`). -/
def resolveLoop (keyed : List (String × PyFloat)) (asc : Bool) (tk : PyFloat) :
    Nat → PyFloat → List (String × PyFloat)
  | 0, _ => []
  | fuel + 1, cur =>
    if pfEq cur tk then []
    else
      match selectNext keyed asc cur tk with
      | none => []
      | some p => p :: resolveLoop keyed asc tk fuel p.2

/-- The plan builder `get_version_operations` (`src/miaopacks.py:108-157`):
resolves the version path from `source` to `target` over the registered
versions and returns it in travel order (each entry carries its numeric
key; the Python code pairs each version with `configs[version]`).
Errors model the uncaught `ValueError` Python `float()` raises on an
unparsable version string. -/
def get_version_operations (registry : List String) (source target : String) :
    Except String (List (String × PyFloat)) :=
  match pyKey source, pyKey target with
  | some sk, some tk =>
    if pfEq sk tk then .ok []
    else
      match keyedList registry with
      | some keyed =>
        .ok (resolveLoop keyed (decide (pfLt sk tk)) tk (registry.length + 1) sk)
      | none => .error "invalid registered version string"
  | _, _ => .error "invalid source or target version string"

lemma keyedList_mem :
    ∀ (registry : List String) (keyed : List (String × PyFloat)),
      keyedList registry = some keyed → ∀ p ∈ keyed, pyKey p.1 = some p.2 := by
  intro registry
  induction registry with
  | nil =>
    intro keyed h p hp
    simp only [keyedList, Option.some.injEq] at h
    subst h
    simp at hp
  | cons v vs ih =>
    intro keyed h p hp
    simp only [keyedList] at h
    cases hk : pyKey v with
    | none => rw [hk] at h; exact absurd h (by simp)
    | some k =>
      cases hr : keyedList vs with
      | none => rw [hk, hr] at h; exact absurd h (by simp)
      | some rest =>
        rw [hk, hr] at h
        simp only [Option.some.injEq] at h
        subst h
        rcases List.mem_cons.mp hp with hpv | hpr
        · subst hpv; exact hk
        · exact ih rest hr p hpr

lemma keyedList_length :
    ∀ (registry : List String) (keyed : List (String × PyFloat)),
      keyedList registry = some keyed → keyed.length = registry.length := by
  intro registry
  induction registry with
  | nil =>
    intro keyed h
    simp only [keyedList, Option.some.injEq] at h
    subst h; rfl
  | cons v vs ih =>
    intro keyed h
    simp only [keyedList] at h
    cases hk : pyKey v with
    | none => rw [hk] at h; exact absurd h (by simp)
    | some k =>
      cases hr : keyedList vs with
      | none => rw [hk, hr] at h; exact absurd h (by simp)
      | some rest =>
        rw [hk, hr] at h
        simp only [Option.some.injEq] at h
        subst h
        simp [ih rest hr]

lemma selectNext_aux (asc : Bool) (cur tk : PyFloat) :
    ∀ (l : List (String × PyFloat)) (acc : Option (String × PyFloat))
      (p : String × PyFloat),
      l.foldl
        (fun best q => if isCand asc cur tk q.2 && beats asc q.2 best then some q else best)
        acc = some p →
      acc = some p ∨ (p ∈ l ∧ isCand asc cur tk p.2 = true) := by
  intro l
  induction l with
  | nil => intro acc p h; exact Or.inl h
  | cons q l ih =>
    intro acc p h
    simp only [List.foldl_cons] at h
    rcases ih _ p h with hacc | ⟨hmem, hcand⟩
    · cases hc : isCand asc cur tk q.2 && beats asc q.2 acc with
      | true =>
        rw [hc, if_pos rfl] at hacc
        have hq : q = p := by injection hacc
        subst hq
        have hcand : isCand asc cur tk q.2 = true := by
          have := hc
          simp only [Bool.and_eq_true] at this
          exact this.1
        exact Or.inr ⟨List.mem_cons_self q l, hcand⟩
      | false =>
        rw [hc] at hacc
        simp only [Bool.false_eq_true, if_false] at hacc
        exact Or.inl hacc
    · exact Or.inr ⟨List.mem_cons_of_mem q hmem, hcand⟩

lemma selectNext_some {keyed : List (String × PyFloat)} {asc : Bool}
    {cur tk : PyFloat} {p : String × PyFloat}
    (h : selectNext keyed asc cur tk = some p) :
    p ∈ keyed ∧ isCand asc cur tk p.2 = true := by
  rcases selectNext_aux asc cur tk keyed none p h with hacc | hok
  · exact absurd hacc (by simp)
  · exact hok

lemma length_filter_le_of_imp {α : Type} (p q : α → Bool) :
    ∀ l : List α, (∀ x ∈ l, p x = true → q x = true) →
      (l.filter p).length ≤ (l.filter q).length := by
  intro l
  induction l with
  | nil => intro _; simp
  | cons a l ih =>
    intro h
    have hl := ih fun x hx => h x (List.mem_cons_of_mem a hx)
    by_cases hp : p a = true
    · rw [List.filter_cons_of_pos hp, List.filter_cons_of_pos (h a (List.mem_cons_self a l) hp)]
      simpa using hl
    · rw [List.filter_cons_of_neg (by simpa using hp)]
      refine hl.trans ?_
      by_cases hq : q a = true
      · rw [List.filter_cons_of_pos hq]; simp
      · rw [List.filter_cons_of_neg (by simpa using hq)]

lemma length_filter_lt_of_imp {α : Type} (p q : α → Bool) :
    ∀ l : List α, (∀ x ∈ l, p x = true → q x = true) →
      ∀ x ∈ l, p x = false → q x = true →
        (l.filter p).length < (l.filter q).length := by
  intro l
  induction l with
  | nil => intro _ x hx; simp at hx
  | cons a l ih =>
    intro h x hx hpx hqx
    have hrest : ∀ y ∈ l, p y = true → q y = true :=
      fun y hy => h y (List.mem_cons_of_mem a hy)
    rcases List.mem_cons.mp hx with hxa | hxl
    · subst hxa
      rw [List.filter_cons_of_neg (by simp [hpx]), List.filter_cons_of_pos hqx]
      simpa [Nat.lt_succ_iff] using length_filter_le_of_imp p q l hrest
    · by_cases hp : p a = true
      · rw [List.filter_cons_of_pos hp, List.filter_cons_of_pos (h a (List.mem_cons_self a l) hp)]
        simpa using ih hrest x hxl hpx hqx
      · rw [List.filter_cons_of_neg (by simpa using hp)]
        refine (ih hrest x hxl hpx hqx).trans_le ?_
        by_cases hq : q a = true
        · rw [List.filter_cons_of_pos hq]; simp
        · rw [List.filter_cons_of_neg (by simpa using hq)]

/-- Registered versions still qualifying from the current key: the
decreasing measure of the resolver loop. -/
def candBool (asc : Bool) (cur : PyFloat) (p : String × PyFloat) : Bool :=
  match asc with
  | true => decide (pfLt cur p.2)
  | false => decide (pfLt p.2 cur)

/-- Number of registered versions on the open side of the current key. -/
def countCand (keyed : List (String × PyFloat)) (asc : Bool) (cur : PyFloat) : Nat :=
  (keyed.filter (candBool asc cur)).length

lemma pfLt_trans {a b c : PyFloat} (h1 : pfLt a b) (h2 : pfLt b c) : pfLt a c := by
  rw [pfLt_iff_toRat] at h1 h2 ⊢
  exact h1.trans h2

lemma pfLt_irrefl (a : PyFloat) : ¬ pfLt a a := by
  rw [pfLt_iff_toRat]
  exact lt_irrefl _

lemma isCand_dest {asc : Bool} {cur tk k : PyFloat} (h : isCand asc cur tk k = true) :
    (asc = true → pfLt cur k ∧ pfLe k tk) ∧ (asc = false → pfLt k cur ∧ pfLe tk k) := by
  cases asc with
  | true =>
    simp only [isCand, Bool.and_eq_true, decide_eq_true_eq] at h
    exact ⟨fun _ => h, fun hf => absurd hf (by simp)⟩
  | false =>
    simp only [isCand, Bool.and_eq_true, decide_eq_true_eq] at h
    exact ⟨fun ht => absurd ht (by simp), fun _ => h⟩

lemma countCand_lt_of_select {keyed : List (String × PyFloat)} {asc : Bool}
    {cur tk : PyFloat} {p : String × PyFloat}
    (h : selectNext keyed asc cur tk = some p) :
    countCand keyed asc p.2 < countCand keyed asc cur := by
  obtain ⟨hmem, hcand⟩ := selectNext_some h
  have hdest := isCand_dest hcand
  cases asc with
  | true =>
    have hlt : pfLt cur p.2 := (hdest.1 rfl).1
    refine length_filter_lt_of_imp _ _ keyed ?_ p hmem ?_ ?_
    · intro x _ hx
      simp only [candBool, decide_eq_true_eq] at hx ⊢
      exact pfLt_trans hlt hx
    · simp only [candBool, decide_eq_false_iff_not]
      exact pfLt_irrefl _
    · simp only [candBool, decide_eq_true_eq]
      exact hlt
  | false =>
    have hlt : pfLt p.2 cur := (hdest.2 rfl).1
    refine length_filter_lt_of_imp _ _ keyed ?_ p hmem ?_ ?_
    · intro x _ hx
      simp only [candBool, decide_eq_true_eq] at hx ⊢
      exact pfLt_trans hx hlt
    · simp only [candBool, decide_eq_false_iff_not]
      exact pfLt_irrefl _
    · simp only [candBool, decide_eq_true_eq]
      exact hlt

lemma countCand_pos_of_select {keyed : List (String × PyFloat)} {asc : Bool}
    {cur tk : PyFloat} {p : String × PyFloat}
    (h : selectNext keyed asc cur tk = some p) :
    0 < countCand keyed asc cur := by
  obtain ⟨hmem, hcand⟩ := selectNext_some h
  have hdest := isCand_dest hcand
  have hp : candBool asc cur p = true := by
    cases asc with
    | true =>
      simp only [candBool, decide_eq_true_eq]
      exact (hdest.1 rfl).1
    | false =>
      simp only [candBool, decide_eq_true_eq]
      exact (hdest.2 rfl).1
  have hmf : p ∈ keyed.filter (candBool asc cur) := List.mem_filter.mpr ⟨hmem, hp⟩
  exact List.length_pos.mpr (List.ne_nil_of_mem hmf)

lemma resolveLoop_zero_count {keyed : List (String × PyFloat)} {asc : Bool}
    {tk cur : PyFloat} (h : countCand keyed asc cur = 0) :
    ∀ m, resolveLoop keyed asc tk m cur = [] := by
  intro m
  cases m with
  | zero => rfl
  | succ m =>
    simp only [resolveLoop]
    by_cases he : pfEq cur tk
    · rw [if_pos he]
    · rw [if_neg he]
      cases hsel : selectNext keyed asc cur tk with
      | none => rfl
      | some p =>
        have hpos := countCand_pos_of_select hsel
        omega

/-- The resolver loop is insensitive to its fuel once the fuel covers the
number of still-qualifying registered versions: the Python `while` loop
always exits. -/
lemma resolveLoop_stable {keyed : List (String × PyFloat)} {asc : Bool} {tk : PyFloat} :
    ∀ (n m : Nat) (cur : PyFloat),
      countCand keyed asc cur ≤ n → countCand keyed asc cur ≤ m →
      resolveLoop keyed asc tk n cur = resolveLoop keyed asc tk m cur := by
  intro n
  induction n with
  | zero =>
    intro m cur h1 _
    have h0 : countCand keyed asc cur = 0 := Nat.le_zero.mp h1
    rw [resolveLoop_zero_count h0, resolveLoop_zero_count h0]
  | succ n ih =>
    intro m cur h1 h2
    by_cases h0 : countCand keyed asc cur = 0
    · rw [resolveLoop_zero_count h0, resolveLoop_zero_count h0]
    · cases m with
      | zero => exact absurd (Nat.le_zero.mp h2) h0
      | succ m =>
        simp only [resolveLoop]
        by_cases he : pfEq cur tk
        · simp only [if_pos he]
        · simp only [if_neg he]
          cases hsel : selectNext keyed asc cur tk with
          | none => rfl
          | some p =>
            have hd := countCand_lt_of_select hsel
            show p :: resolveLoop keyed asc tk n p.2 = p :: resolveLoop keyed asc tk m p.2
            rw [ih m p.2 (Nat.lt_succ_iff.mp (hd.trans_le h1))
              (Nat.lt_succ_iff.mp (hd.trans_le h2))]

/-- Keys along the loop output, ascending case: every appended entry is a
registered version whose key lies strictly above the key the loop was at
and at most the target key, and consecutive keys strictly increase. -/
lemma resolveLoop_sorted_bounded {keyed : List (String × PyFloat)} {tk : PyFloat} :
    ∀ (fuel : Nat) (cur : PyFloat),
      (∀ p ∈ resolveLoop keyed true tk fuel cur, pfLt cur p.2 ∧ pfLe p.2 tk ∧ p ∈ keyed) ∧
      List.Chain' (fun p q : String × PyFloat => pfLt p.2 q.2)
        (resolveLoop keyed true tk fuel cur) := by
  intro fuel
  induction fuel with
  | zero => intro cur; exact ⟨by simp [resolveLoop], by simp [resolveLoop]⟩
  | succ fuel ih =>
    intro cur
    simp only [resolveLoop]
    by_cases he : pfEq cur tk
    · rw [if_pos he]; exact ⟨by simp, by simp⟩
    · rw [if_neg he]
      cases hsel : selectNext keyed true cur tk with
      | none => exact ⟨by simp, by simp⟩
      | some p =>
        obtain ⟨hmem, hcand⟩ := selectNext_some hsel
        obtain ⟨hcur, htk⟩ := (isCand_dest hcand).1 rfl
        obtain ⟨ihmem, ihchain⟩ := ih p.2
        constructor
        · intro q hq
          rcases List.mem_cons.mp hq with hqp | hqr
          · subst hqp; exact ⟨hcur, htk, hmem⟩
          · obtain ⟨h1, h2, h3⟩ := ihmem q hqr
            exact ⟨pfLt_trans hcur h1, h2, h3⟩
        · rw [List.chain'_cons']
          refine ⟨?_, ihchain⟩
          intro q hq
          exact (ihmem q (List.mem_of_mem_head? hq)).1

lemma keyedList_mem_fst :
    ∀ (registry : List String) (keyed : List (String × PyFloat)),
      keyedList registry = some keyed → ∀ p ∈ keyed, p.1 ∈ registry := by
  intro registry
  induction registry with
  | nil =>
    intro keyed h p hp
    simp only [keyedList, Option.some.injEq] at h
    subst h
    simp at hp
  | cons v vs ih =>
    intro keyed h p hp
    simp only [keyedList] at h
    cases hk : pyKey v with
    | none => rw [hk] at h; exact absurd h (by simp)
    | some k =>
      cases hr : keyedList vs with
      | none => rw [hk, hr] at h; exact absurd h (by simp)
      | some rest =>
        rw [hk, hr] at h
        simp only [Option.some.injEq] at h
        subst h
        rcases List.mem_cons.mp hp with hpv | hpr
        · subst hpv; exact List.mem_cons_self _ _
        · exact List.mem_cons_of_mem v (ih rest hr p hpr)

/-- C1: for registered versions `a`, `b` whose keys satisfy `key a < key b`,
every config in the plan returned by `get_version_operations a b` is a
registered version whose key (the key the code itself computes for that
version string) lies strictly above `key a` and at most `key b`, and the
keys strictly increase (hence are non-decreasing) along the plan; the
numeric (`ℚ`-valued) forms of both statements are included. -/
theorem resolver_plan_monotone_bounded (registry : List String) (a b : String)
    (sk tk : PyFloat) (keyed plan : List (String × PyFloat))
    (ha : a ∈ registry) (hb : b ∈ registry)
    (hka : pyKey a = some sk) (hkb : pyKey b = some tk)
    (hlt : pfLt sk tk)
    (hkeyed : keyedList registry = some keyed)
    (hplan : get_version_operations registry a b = .ok plan) :
    List.Chain' (fun p q : String × PyFloat => pfLt p.2 q.2) plan ∧
    (∀ p ∈ plan, pfLt sk p.2 ∧ pfLe p.2 tk) ∧
    (∀ p ∈ plan, p.1 ∈ registry ∧ pyKey p.1 = some p.2) ∧
    List.Chain' (fun p q : String × PyFloat => p.2.toRat ≤ q.2.toRat) plan ∧
    (∀ p ∈ plan, sk.toRat < p.2.toRat ∧ p.2.toRat ≤ tk.toRat) := by
  have hne : ¬ pfEq sk tk := by
    rw [pfEq_iff_toRat]
    exact ne_of_lt (pfLt_iff_toRat.mp hlt)
  unfold get_version_operations at hplan
  simp only [hka, hkb, if_neg hne, hkeyed, decide_eq_true hlt] at hplan
  have hplan' : resolveLoop keyed true tk (registry.length + 1) sk = plan := by
    injection hplan
  obtain ⟨hmem, hchain⟩ := @resolveLoop_sorted_bounded keyed tk
    (registry.length + 1) sk
  rw [hplan'] at hmem hchain
  refine ⟨hchain, fun p hp => ⟨(hmem p hp).1, (hmem p hp).2.1⟩, ?_, ?_, ?_⟩
  · intro p hp
    exact ⟨keyedList_mem_fst registry keyed hkeyed p (hmem p hp).2.2,
      keyedList_mem registry keyed hkeyed p (hmem p hp).2.2⟩
  · exact hchain.imp fun p q h => le_of_lt (pfLt_iff_toRat.mp h)
  · intro p hp
    exact ⟨pfLt_iff_toRat.mp (hmem p hp).1, pfLe_iff_toRat.mp (hmem p hp).2.1⟩

/-- Witness for C1 at the registry of the three format versions
1.19.4, 1.20.1, 1.21, converting 1.19.4 up to 1.21: the plan visits
1.20.1 (key 20.1) then 1.21 (key 21). -/
theorem resolver_plan_monotone_bounded_witness :
    List.Chain' (fun p q : String × PyFloat => pfLt p.2 q.2)
      [("1.20.1", ⟨201, 1⟩), ("1.21", ⟨21, 0⟩)] ∧
    (∀ p ∈ ([("1.20.1", ⟨201, 1⟩), ("1.21", ⟨21, 0⟩)] : List (String × PyFloat)),
      pfLt ⟨194, 1⟩ p.2 ∧ pfLe p.2 ⟨21, 0⟩) ∧
    (∀ p ∈ ([("1.20.1", ⟨201, 1⟩), ("1.21", ⟨21, 0⟩)] : List (String × PyFloat)),
      p.1 ∈ ["1.19.4", "1.20.1", "1.21"] ∧ pyKey p.1 = some p.2) ∧
    List.Chain' (fun p q : String × PyFloat => p.2.toRat ≤ q.2.toRat)
      [("1.20.1", ⟨201, 1⟩), ("1.21", ⟨21, 0⟩)] ∧
    (∀ p ∈ ([("1.20.1", ⟨201, 1⟩), ("1.21", ⟨21, 0⟩)] : List (String × PyFloat)),
      PyFloat.toRat ⟨194, 1⟩ < p.2.toRat ∧ p.2.toRat ≤ PyFloat.toRat ⟨21, 0⟩) :=
  resolver_plan_monotone_bounded ["1.19.4", "1.20.1", "1.21"] "1.19.4" "1.21"
    ⟨194, 1⟩ ⟨21, 0⟩
    [("1.19.4", ⟨194, 1⟩), ("1.20.1", ⟨201, 1⟩), ("1.21", ⟨21, 0⟩)]
    [("1.20.1", ⟨201, 1⟩), ("1.21", ⟨21, 0⟩)]
    (by decide) (by decide) (by decide) (by decide) (by decide) (by decide) rfl

/-- C8: for any source/target pair (keys parse, registered keys parse),
resolution never raises and never loops forever: the returned plan is
reproduced by the loop at any fuel at least `|registry| + 1` (the while
loop exits), and when no qualifying candidate exists from the source key
the returned plan is the partial plan built so far — the empty one. -/
theorem resolver_terminates_with_partial_plan (registry : List String) (a b : String)
    (sk tk : PyFloat) (keyed : List (String × PyFloat))
    (hka : pyKey a = some sk) (hkb : pyKey b = some tk)
    (hkeyed : keyedList registry = some keyed) :
    ∃ plan, get_version_operations registry a b = .ok plan ∧
      (∀ m, registry.length + 1 ≤ m →
        resolveLoop keyed (decide (pfLt sk tk)) tk m sk = plan) ∧
      (¬ pfEq sk tk → selectNext keyed (decide (pfLt sk tk)) sk tk = none →
        plan = []) := by
  by_cases he : pfEq sk tk
  · refine ⟨[], ?_, ?_, ?_⟩
    · unfold get_version_operations
      simp only [hka, hkb, if_pos he]
    · intro m hm
      cases m with
      | zero => omega
      | succ m => simp only [resolveLoop, if_pos he]
    · intro hne _
      exact absurd he hne
  · have hcount : countCand keyed (decide (pfLt sk tk)) sk ≤ registry.length := by
      have h1 := List.length_filter_le (candBool (decide (pfLt sk tk)) sk) keyed
      rw [keyedList_length registry keyed hkeyed] at h1
      exact h1
    refine ⟨resolveLoop keyed (decide (pfLt sk tk)) tk (registry.length + 1) sk,
      ?_, ?_, ?_⟩
    · unfold get_version_operations
      simp only [hka, hkb, if_neg he, hkeyed]
    · intro m hm
      exact resolveLoop_stable m (registry.length + 1) sk
        (hcount.trans (by omega)) (hcount.trans (by omega))
    · intro hne hsel
      simp only [resolveLoop, if_neg hne, hsel]

/-- Witness for C8: a registry whose only version 1.21 lies beyond the
target 1.20.1, so no candidate qualifies from 1.19.4 and the plan is
empty, with the loop stable at any sufficient fuel. -/
theorem resolver_terminates_with_partial_plan_witness :
    ∃ plan,
      get_version_operations ["1.21"] "1.19.4" "1.20.1" = .ok plan ∧
      (∀ m, 2 ≤ m →
        resolveLoop [("1.21", ⟨21, 0⟩)] (decide (pfLt ⟨194, 1⟩ ⟨201, 1⟩)) ⟨201, 1⟩ m
          ⟨194, 1⟩ = plan) ∧
      (¬ pfEq ⟨194, 1⟩ ⟨201, 1⟩ →
        selectNext [("1.21", ⟨21, 0⟩)] (decide (pfLt ⟨194, 1⟩ ⟨201, 1⟩)) ⟨194, 1⟩
          ⟨201, 1⟩ = none →
        plan = []) :=
  resolver_terminates_with_partial_plan ["1.21"] "1.19.4" "1.20.1"
    ⟨194, 1⟩ ⟨201, 1⟩ [("1.21", ⟨21, 0⟩)] (by decide) (by decide) (by decide)

/-- One RGBA pixel of a decoded raster image (the program converts every
image it touches to RGBA mode before operating on it). -/
structure RGBA where
  r : Nat
  g : Nat
  b : Nat
  a : Nat
deriving DecidableEq, Repr

/-- A decoded raster image: dimensions plus pixel data.  Coordinates
outside the `width × height` grid are never touched by any operation. -/
structure Img where
  width : Nat
  height : Nat
  pix : Nat → Nat → RGBA

/-- A pixel box `(left, top, right, bottom)` as the JSON configs carry for
crop boxes and keep areas. -/
structure Rect where
  l : Int
  t : Int
  r : Int
  b : Int
deriving DecidableEq, Repr

/-- PIL `img.crop(box)` as called by `split_image`
(`src/miaopacks.py:14-31`): the new image has the box's dimensions and
out-of-source-bounds pixels are filled with zeros. -/
def cropImage (img : Img) (box : Rect) : Img where
  width := (box.r - box.l).toNat
  height := (box.b - box.t).toNat
  pix := fun x y =>
    let sx : Int := box.l + x
    let sy : Int := box.t + y
    if 0 ≤ sx ∧ sx < img.width ∧ 0 ≤ sy ∧ sy < img.height then
      img.pix sx.toNat sy.toNat
    else ⟨0, 0, 0, 0⟩

/-- One channel of the alpha blend performed by PIL
`base.paste(overlay, position, overlay)` using the overlay's own alpha
band as the mask. -/
def blendChan (bc oc a : Nat) : Nat := (bc * (255 - a) + oc * a) / 255

/-- PIL `base.paste(overlay, position, overlay)` as called by
`merge_images` (`src/miaopacks.py:33-57`): inside the pasted region each
channel is blended by the overlay's alpha; outside it the base is
untouched. -/
def pasteImage (base ov : Img) (pos : Int × Int) : Img where
  width := base.width
  height := base.height
  pix := fun x y =>
    let ox : Int := (x : Int) - pos.1
    let oy : Int := (y : Int) - pos.2
    if x < base.width ∧ y < base.height ∧
        0 ≤ ox ∧ ox < ov.width ∧ 0 ≤ oy ∧ oy < ov.height then
      let p := base.pix x y
      let q := ov.pix ox.toNat oy.toNat
      ⟨blendChan p.r q.r q.a, blendChan p.g q.g q.a, blendChan p.b q.b q.a,
        blendChan p.a q.a q.a⟩
    else base.pix x y

/-- The pixel loop of `apply_transparency` (`src/miaopacks.py:250-283`):
every pixel of the image whose coordinates are outside the inclusive
`keep_area` box gets its alpha channel forced to zero; pixels inside the
box, including their original alpha, are untouched. -/
def maskOutside (img : Img) (keep : Rect) : Img where
  width := img.width
  height := img.height
  pix := fun x y =>
    if x < img.width ∧ y < img.height then
      if keep.l ≤ (x : Int) ∧ (x : Int) ≤ keep.r ∧
          keep.t ≤ (y : Int) ∧ (y : Int) ≤ keep.b then
        img.pix x y
      else
        let p := img.pix x y
        ⟨p.r, p.g, p.b, 0⟩
    else img.pix x y

/-- C7: transparency masking is idempotent — applying the keep-rectangle
mask to an image that already resulted from the same mask yields pixel
data (and dimensions) identical to applying it once. -/
theorem transparency_mask_idempotent (img : Img) (keep : Rect) :
    maskOutside (maskOutside img keep) keep = maskOutside img keep := by
  have hpix : ∀ x y, (maskOutside (maskOutside img keep) keep).pix x y =
      (maskOutside img keep).pix x y := by
    intro x y
    by_cases hb : x < img.width ∧ y < img.height
    · by_cases hk : keep.l ≤ (x : Int) ∧ (x : Int) ≤ keep.r ∧
          keep.t ≤ (y : Int) ∧ (y : Int) ≤ keep.b
      · simp only [maskOutside, if_pos hb, if_pos hk]
      · simp only [maskOutside, if_pos hb, if_neg hk]
    · simp only [maskOutside, if_neg hb]
  have hfun : (maskOutside (maskOutside img keep) keep).pix =
      (maskOutside img keep).pix :=
    funext fun x => funext fun y => hpix x y
  show Img.mk img.width img.height (maskOutside (maskOutside img keep) keep).pix =
    Img.mk img.width img.height (maskOutside img keep).pix
  rw [hfun]

/-- A file tree, as the POSIX-path-keyed set of decodable image files; the
value `none` stands for a path that is absent (or whose content PIL cannot
open — both make `os.path.exists`-guarded operations skip, or
`Image.open`-raising operations no-op via the caught exception). -/
def FS : Type := String → Option Img

/-- One entry of `split_operations[source]`: a crop box and the
pack-relative target path. -/
structure SplitEntry where
  source : Rect
  target : String
deriving DecidableEq, Repr

/-- One entry of `merge_operations[target]`: a pack-relative source path
and a paste offset. -/
structure MergeEntry where
  source : String
  position : Int × Int
deriving DecidableEq, Repr

/-- The entry of `transparency_operations[source]`: the pack-relative
target path and the inclusive keep box. -/
structure TransEntry where
  target : String
  keep_area : Rect
deriving DecidableEq, Repr

/-- One version-config record, as decoded from a JSON document in the
config directory (`versions` is `none` when the document has no
`versions` key; the four operation tables default to empty like
`config.get(..., {})` does). -/
structure VersionConfig where
  versions : Option (List String) := none
  removed_files : List String := []
  split_operations : List (String × List SplitEntry) := []
  merge_operations : List (String × List MergeEntry) := []
  transparency_operations : List (String × TransEntry) := []
deriving DecidableEq

/-- Writing one image file into a tree. -/
def setFS (fs : FS) (path : String) (img : Img) : FS :=
  fun p => if p = path then some img else fs p

/-- The inner loop of the split phase
(`src/miaopacks.py:178-180`): each declared crop of one present source
image is written to its target path in the working tree. -/
def applySplitsFor (img : Img) (entries : List SplitEntry) (work : FS) : FS :=
  entries.foldl (fun w e => setFS w e.target (cropImage img e.source)) work

/-- The split phase (`src/miaopacks.py:175-180`): sources are read (and
their existence tested) from the source pack tree `src`; a missing source
skips its whole entry. -/
def applySplits (src : FS) (ops : List (String × List SplitEntry)) (work : FS) : FS :=
  ops.foldl
    (fun w so =>
      match src so.1 with
      | some img => applySplitsFor img so.2 w
      | none => w)
    work

/-- One merge entry (`src/miaopacks.py:185-189` plus `merge_images`):
the overlay is read from the source pack tree and its existence tested
there; the base is the target file in the working tree.  A missing
overlay skips the entry; a missing base makes `Image.open` raise inside
`merge_images`, which catches and no-ops. -/
def mergeOne (src : FS) (targetFile : String) (m : MergeEntry) (work : FS) : FS :=
  match src m.source with
  | none => work
  | some ov =>
    match work targetFile with
    | none => work
    | some base => setFS work targetFile (pasteImage base ov m.position)

/-- All merge entries declared for one target file, in order. -/
def applyMergesFor (src : FS) (targetFile : String) (ms : List MergeEntry)
    (work : FS) : FS :=
  ms.foldl (fun w m => mergeOne src targetFile m w) work

/-- The merge phase (`src/miaopacks.py:183-189`). -/
def applyMerges (src : FS) (ops : List (String × List MergeEntry)) (work : FS) : FS :=
  ops.foldl (fun w tm => applyMergesFor src tm.1 tm.2 w) work

/-- The transparency phase (`src/miaopacks.py:192-198`): for each source
path present in the source pack tree, the source image is copied to the
target path in the working tree and masked there; copy-then-mask-in-place
equals writing the masked source image. -/
def applyTransOps (src : FS) (ops : List (String × TransEntry)) (work : FS) : FS :=
  ops.foldl
    (fun w st =>
      match src st.1 with
      | some img => setFS w st.2.target (maskOutside img st.2.keep_area)
      | none => w)
    work

/-- One plan step of `process_version_conversion`
(`src/miaopacks.py:166-198`): removals are only recorded in the exclusion
set, then splits, merges and transparency operations run against the
working tree, all reading their source images from the immutable source
pack tree `src`. -/
def processOps (src : FS) (cfg : VersionConfig) (work : FS) (excl : List String) :
    FS × List String :=
  (applyTransOps src cfg.transparency_operations
      (applyMerges src cfg.merge_operations
        (applySplits src cfg.split_operations work)),
    excl ++ cfg.removed_files)

/-- The whole loop over the conversion plan. -/
def processPlan (src : FS) (cfgs : List VersionConfig) (work : FS)
    (excl : List String) : FS × List String :=
  cfgs.foldl (fun acc cfg => processOps src cfg acc.1 acc.2) (work, excl)

/-- C5: a merge entry whose overlay is missing from the source pack tree
is a complete no-op on the working tree — the merge target is byte-for-byte
its prior contents, no error is raised (the step is total), and the
remaining merge operations of the step run exactly as if the entry were
absent. -/
theorem merge_missing_overlay_skipped (src work : FS) (targetFile : String)
    (m : MergeEntry) (ms : List MergeEntry) (rest : List (String × List MergeEntry))
    (hmiss : src m.source = none) :
    mergeOne src targetFile m work = work ∧
    mergeOne src targetFile m work targetFile = work targetFile ∧
    applyMerges src ((targetFile, m :: ms) :: rest) work =
      applyMerges src ((targetFile, ms) :: rest) work := by
  have h1 : mergeOne src targetFile m work = work := by
    unfold mergeOne
    rw [hmiss]
  refine ⟨h1, by rw [h1], ?_⟩
  show List.foldl _ (applyMergesFor src targetFile (m :: ms) work) rest =
    List.foldl _ (applyMergesFor src targetFile ms work) rest
  have h2 : applyMergesFor src targetFile (m :: ms) work =
      applyMergesFor src targetFile ms work := by
    unfold applyMergesFor
    rw [List.foldl_cons, h1]
  rw [h2]

/-- A 1×1 opaque test image used by the concrete witnesses. -/
def testImg : Img := ⟨1, 1, fun _ _ => ⟨0, 0, 0, 255⟩⟩

/-- Source pack tree for the C5 witness: has the merge base but not the
overlay. -/
def srcTreeC5 : FS := fun p => if p = "base.png" then some testImg else none

/-- Working tree for the C5 witness. -/
def workTreeC5 : FS := fun p => if p = "base.png" then some testImg else none

/-- Witness for C5: pasting the absent `overlay.png` onto `base.png`
changes nothing and the rest of the step still runs. -/
theorem merge_missing_overlay_skipped_witness :
    mergeOne srcTreeC5 "base.png" ⟨"overlay.png", (4, 4)⟩ workTreeC5 = workTreeC5 ∧
    mergeOne srcTreeC5 "base.png" ⟨"overlay.png", (4, 4)⟩ workTreeC5 "base.png" =
      workTreeC5 "base.png" ∧
    applyMerges srcTreeC5 [("base.png", [⟨"overlay.png", (4, 4)⟩])] workTreeC5 =
      applyMerges srcTreeC5 [("base.png", [])] workTreeC5 :=
  merge_missing_overlay_skipped srcTreeC5 workTreeC5 "base.png"
    ⟨"overlay.png", (4, 4)⟩ [] [] rfl

/-- The merge target paths declared by one config — the only working-tree
locations any operation of a step reads. -/
def mergeTargets (cfg : VersionConfig) : List String :=
  cfg.merge_operations.map Prod.fst

/-- Two evolving working trees track two initial trees: at every path they
either already agree or still hold their respective initial contents.
This is the invariant expressing that the pipeline reads the working tree
only at merge targets. -/
def TrackEq (w₁ w₂ a b : FS) : Prop :=
  ∀ p, a p = b p ∨ (a p = w₁ p ∧ b p = w₂ p)

lemma trackEq_init (w₁ w₂ : FS) : TrackEq w₁ w₂ w₁ w₂ :=
  fun _ => Or.inr ⟨rfl, rfl⟩

lemma setFS_track {w₁ w₂ a b : FS} (h : TrackEq w₁ w₂ a b) (path : String)
    (img : Img) : TrackEq w₁ w₂ (setFS a path img) (setFS b path img) := by
  intro p
  unfold setFS
  by_cases hp : p = path
  · rw [if_pos hp, if_pos hp]
    exact Or.inl rfl
  · rw [if_neg hp, if_neg hp]
    exact h p

lemma applySplitsFor_track {w₁ w₂ : FS} (img : Img) :
    ∀ (entries : List SplitEntry) {a b : FS}, TrackEq w₁ w₂ a b →
      TrackEq w₁ w₂ (applySplitsFor img entries a) (applySplitsFor img entries b) := by
  intro entries
  induction entries with
  | nil => intro a b h; exact h
  | cons e es ih =>
    intro a b h
    exact ih (setFS_track h e.target (cropImage img e.source))

lemma applySplits_track {w₁ w₂ : FS} (src : FS) :
    ∀ (ops : List (String × List SplitEntry)) {a b : FS}, TrackEq w₁ w₂ a b →
      TrackEq w₁ w₂ (applySplits src ops a) (applySplits src ops b) := by
  intro ops
  induction ops with
  | nil => intro a b h; exact h
  | cons so rest ih =>
    intro a b h
    show TrackEq w₁ w₂
      (List.foldl _ (match src so.1 with
        | some img => applySplitsFor img so.2 a
        | none => a) rest)
      (List.foldl _ (match src so.1 with
        | some img => applySplitsFor img so.2 b
        | none => b) rest)
    cases hsrc : src so.1 with
    | none => exact ih h
    | some img => exact ih (applySplitsFor_track img so.2 h)

lemma mergeOne_track {w₁ w₂ a b : FS} (src : FS) (targetFile : String)
    (m : MergeEntry) (h : TrackEq w₁ w₂ a b) (ht : w₁ targetFile = w₂ targetFile) :
    TrackEq w₁ w₂ (mergeOne src targetFile m a) (mergeOne src targetFile m b) := by
  unfold mergeOne
  cases hsrc : src m.source with
  | none => exact h
  | some ov =>
    have hab : a targetFile = b targetFile := by
      rcases h targetFile with h' | ⟨h1, h2⟩
      · exact h'
      · rw [h1, h2, ht]
    show TrackEq w₁ w₂
      (match a targetFile with
        | none => a
        | some base => setFS a targetFile (pasteImage base ov m.position))
      (match b targetFile with
        | none => b
        | some base => setFS b targetFile (pasteImage base ov m.position))
    rw [← hab]
    cases hat : a targetFile with
    | none => exact h
    | some base => exact setFS_track h targetFile (pasteImage base ov m.position)

lemma applyMergesFor_track {w₁ w₂ : FS} (src : FS) (targetFile : String)
    (ht : w₁ targetFile = w₂ targetFile) :
    ∀ (ms : List MergeEntry) {a b : FS}, TrackEq w₁ w₂ a b →
      TrackEq w₁ w₂ (applyMergesFor src targetFile ms a)
        (applyMergesFor src targetFile ms b) := by
  intro ms
  induction ms with
  | nil => intro a b h; exact h
  | cons m rest ih =>
    intro a b h
    exact ih (mergeOne_track src targetFile m h ht)

lemma applyMerges_track {w₁ w₂ : FS} (src : FS) :
    ∀ (ops : List (String × List MergeEntry)),
      (∀ t ∈ ops.map Prod.fst, w₁ t = w₂ t) →
      ∀ {a b : FS}, TrackEq w₁ w₂ a b →
        TrackEq w₁ w₂ (applyMerges src ops a) (applyMerges src ops b) := by
  intro ops
  induction ops with
  | nil => intro _ a b h; exact h
  | cons tm rest ih =>
    intro hts a b h
    have hhead : w₁ tm.1 = w₂ tm.1 :=
      hts tm.1 (by simp)
    have hrest : ∀ t ∈ rest.map Prod.fst, w₁ t = w₂ t :=
      fun t htm => hts t (by simp [htm])
    exact ih hrest (applyMergesFor_track src tm.1 hhead tm.2 h)

lemma applyTransOps_track {w₁ w₂ : FS} (src : FS) :
    ∀ (ops : List (String × TransEntry)) {a b : FS}, TrackEq w₁ w₂ a b →
      TrackEq w₁ w₂ (applyTransOps src ops a) (applyTransOps src ops b) := by
  intro ops
  induction ops with
  | nil => intro a b h; exact h
  | cons st rest ih =>
    intro a b h
    show TrackEq w₁ w₂
      (List.foldl _ (match src st.1 with
        | some img => setFS a st.2.target (maskOutside img st.2.keep_area)
        | none => a) rest)
      (List.foldl _ (match src st.1 with
        | some img => setFS b st.2.target (maskOutside img st.2.keep_area)
        | none => b) rest)
    cases hsrc : src st.1 with
    | none => exact ih h
    | some img => exact ih (setFS_track h st.2.target (maskOutside img st.2.keep_area))

lemma processOps_track {w₁ w₂ : FS} (src : FS) (cfg : VersionConfig)
    (hmt : ∀ t ∈ mergeTargets cfg, w₁ t = w₂ t)
    {a b : FS} (e₁ e₂ : List String) (h : TrackEq w₁ w₂ a b) :
    TrackEq w₁ w₂ (processOps src cfg a e₁).1 (processOps src cfg b e₂).1 :=
  applyTransOps_track src cfg.transparency_operations
    (applyMerges_track src cfg.merge_operations hmt
      (applySplits_track src cfg.split_operations h))

/-- C10: split, merge and transparency operations read their source images
(and test their existence) only from the immutable source pack tree, and
read the working tree only at merge target paths.  Hence whenever two
initial working trees agree on every merge target of the plan, running the
plan leaves them related pointwise: at each path either both runs produced
the same contents (everything any step wrote, which depends only on the
source pack tree and on merge targets), or both trees still hold their
untouched initial contents — earlier writes can only be observed through
merge targets. -/
theorem ops_read_sources_from_pack_only (src : FS) (cfgs : List VersionConfig)
    (w₁ w₂ : FS) (e₁ e₂ : List String)
    (hmt : ∀ cfg ∈ cfgs, ∀ t ∈ mergeTargets cfg, w₁ t = w₂ t) :
    TrackEq w₁ w₂ (processPlan src cfgs w₁ e₁).1 (processPlan src cfgs w₂ e₂).1 := by
  have main : ∀ (cfgs' : List VersionConfig),
      (∀ cfg ∈ cfgs', ∀ t ∈ mergeTargets cfg, w₁ t = w₂ t) →
      ∀ {a b : FS} (e₁' e₂' : List String), TrackEq w₁ w₂ a b →
        TrackEq w₁ w₂ (List.foldl (fun acc cfg => processOps src cfg acc.1 acc.2) (a, e₁') cfgs').1
          (List.foldl (fun acc cfg => processOps src cfg acc.1 acc.2) (b, e₂') cfgs').1 := by
    intro cfgs'
    induction cfgs' with
    | nil => intro _ a b e₁' e₂' h; exact h
    | cons cfg rest ih =>
      intro hmt' a b e₁' e₂' h
      have hhead : ∀ t ∈ mergeTargets cfg, w₁ t = w₂ t :=
        hmt' cfg (by simp)
      have hrest : ∀ c ∈ rest, ∀ t ∈ mergeTargets c, w₁ t = w₂ t :=
        fun c hc => hmt' c (by simp [hc])
      show TrackEq w₁ w₂
        (List.foldl _ (processOps src cfg a e₁') rest).1
        (List.foldl _ (processOps src cfg b e₂') rest).1
      exact ih hrest _ _ (processOps_track src cfg hhead e₁' e₂' h)
  exact main cfgs hmt e₁ e₂ (trackEq_init w₁ w₂)

/-- Source pack tree for the C10 witness: only the split source exists. -/
def srcTreeC10 : FS := fun p => if p = "s.png" then some testImg else none

/-- First working tree for the C10 witness: holds an extra file that the
second working tree lacks; both agree (are empty) at the merge target. -/
def workTreeA : FS := fun p => if p = "other.png" then some testImg else none

/-- Second working tree for the C10 witness: empty. -/
def workTreeB : FS := fun _ => none

/-- Plan for the C10 witness: one config splitting `s.png` into `out.png`
and merging `ov.png` onto `base.png`. -/
def cfgC10 : VersionConfig :=
  { split_operations := [("s.png", [⟨⟨0, 0, 1, 1⟩, "out.png"⟩])],
    merge_operations := [("base.png", [⟨"ov.png", (4, 4)⟩])] }

/-- Witness for C10 at a concrete plan and pair of working trees agreeing
on the merge target. -/
theorem ops_read_sources_from_pack_only_witness :
    TrackEq workTreeA workTreeB
      (processPlan srcTreeC10 [cfgC10] workTreeA []).1
      (processPlan srcTreeC10 [cfgC10] workTreeB []).1 :=
  ops_read_sources_from_pack_only srcTreeC10 [cfgC10] workTreeA workTreeB [] []
    (by
      intro cfg hcfg t ht
      rw [List.mem_singleton] at hcfg
      subst hcfg
      simp only [mergeTargets, cfgC10, List.map_cons, List.map_nil,
        List.mem_singleton] at ht
      subst ht
      show (if ("base.png" : String) = "other.png" then some testImg else none) =
        workTreeB "base.png"
      rw [if_neg (by decide)]
      rfl)

/-- Python `rel_path.replace('\\', '/')` (`src/miaopacks.py:975`): convert
every backslash of a tree-relative path to a forward slash. -/
def normalizeSep (s : String) : String :=
  String.mk (s.data.map fun c => if c = '\\' then '/' else c)

/-- The archive-writing loop of `on_confirm` (`src/miaopacks.py:969-978`):
walk every file of the working tree, normalize its tree-relative path, and
write it to the zip under that name unless the normalized path is a member
of the exclusion set.  `tree` is the list of tree-relative paths the walk
visits; the result is the list of archive entry names. -/
def archiveEntries (tree excl : List String) : List String :=
  (tree.map normalizeSep).filter fun rel => decide (rel ∉ excl)

/-- C2: packaging never writes an excluded path into the archive, and
every working-tree file (in particular every split target) whose
normalized path is not excluded is written into the archive. -/
theorem packaging_respects_exclusions (tree excl : List String) (p q : String)
    (hp : p ∈ excl) (hq : q ∈ tree) (hqe : normalizeSep q ∉ excl) :
    p ∉ archiveEntries tree excl ∧ normalizeSep q ∈ archiveEntries tree excl := by
  constructor
  · intro hmem
    unfold archiveEntries at hmem
    rw [List.mem_filter] at hmem
    have hnot := hmem.2
    simp only [decide_eq_true_eq] at hnot
    exact hnot hp
  · unfold archiveEntries
    rw [List.mem_filter]
    exact ⟨List.mem_map_of_mem normalizeSep hq, decide_eq_true hqe⟩

/-- Witness for C2: tree with the excluded `a.png` and the split target
`sub\c.png`; the archive omits `a.png` and contains `sub/c.png`. -/
theorem packaging_respects_exclusions_witness :
    "a.png" ∉ archiveEntries ["a.png", "sub\\c.png"] ["a.png"] ∧
    normalizeSep "sub\\c.png" ∈ archiveEntries ["a.png", "sub\\c.png"] ["a.png"] :=
  packaging_respects_exclusions ["a.png", "sub\\c.png"] ["a.png"] "a.png" "sub\\c.png"
    (by decide) (by decide) (by decide)

/-- The decoded `pack` object of the metadata file: the format code the
program rewrites plus the description it leaves alone. -/
structure PackInfo where
  pack_format : Int
  description : String
deriving DecidableEq, Repr

/-- The decoded metadata file (`pack.mcmeta`). -/
structure PackMcmeta where
  pack : PackInfo
deriving DecidableEq, Repr

/-- The fixed version-string → format-code table of `on_confirm`
(`src/miaopacks.py:931-942`). -/
def version_format : List (String × Int) :=
  [("1.16.5", 6), ("1.17.1", 7), ("1.18.2", 8), ("1.19.2", 9), ("1.19.3", 12),
    ("1.19.4", 13), ("1.20.1", 15), ("1.20.2", 18), ("1.20.4", 26), ("1.21", 30)]

/-- The metadata rewrite `mcmeta['pack']['pack_format'] =
version_format.get(target, 15)` (`src/miaopacks.py:944`). -/
def updatePackFormat (m : PackMcmeta) (target : String) : PackMcmeta :=
  { m with pack := { m.pack with pack_format := (version_format.lookup target).getD 15 } }

/-- The guarded rewrite step (`src/miaopacks.py:926-947`): only performed
when the working tree contains the metadata file (`none` models an absent
file). -/
def rewriteMcmetaStep (tree : Option PackMcmeta) (target : String) : Option PackMcmeta :=
  match tree with
  | some m => some (updatePackFormat m target)
  | none => none

/-- C3: when the working tree contains the metadata file, the packaged
metadata's `pack.pack_format` equals the fixed lookup-table value for the
target version string regardless of the field's original value, and equals
the default code 15 for every target not in the table; the description is
untouched. -/
theorem pack_format_rewrite (orig : Option PackMcmeta) (m : PackMcmeta)
    (target : String) (horig : orig = some m) :
    ∃ m', rewriteMcmetaStep orig target = some m' ∧
      m'.pack.pack_format = (version_format.lookup target).getD 15 ∧
      (∀ code, version_format.lookup target = some code →
        m'.pack.pack_format = code) ∧
      (version_format.lookup target = none → m'.pack.pack_format = 15) ∧
      (∀ m₂ : PackMcmeta,
        (updatePackFormat m₂ target).pack.pack_format = m'.pack.pack_format) ∧
      m'.pack.description = m.pack.description := by
  subst horig
  refine ⟨updatePackFormat m target, rfl, rfl, ?_, ?_, fun m₂ => rfl, rfl⟩
  · intro code hc
    simp [updatePackFormat, hc]
  · intro hn
    simp [updatePackFormat, hn]

/-- Witness for C3: the target `1.20.1` maps to format code 15 and the
original field value 42 is irrelevant. -/
theorem pack_format_rewrite_witness :
    ∃ m', rewriteMcmetaStep (some ⟨⟨42, "old pack"⟩⟩) "1.20.1" = some m' ∧
      m'.pack.pack_format = (version_format.lookup "1.20.1").getD 15 ∧
      (∀ code, version_format.lookup "1.20.1" = some code →
        m'.pack.pack_format = code) ∧
      (version_format.lookup "1.20.1" = none → m'.pack.pack_format = 15) ∧
      (∀ m₂ : PackMcmeta,
        (updatePackFormat m₂ "1.20.1").pack.pack_format = m'.pack.pack_format) ∧
      m'.pack.description = "old pack" :=
  pack_format_rewrite (some ⟨⟨42, "old pack"⟩⟩) ⟨⟨42, "old pack"⟩⟩ "1.20.1" rfl

/-- Python `name.endswith(suf)`: the last `len(suf)` characters equal
`suf` (false when the name is shorter). -/
def endsWithStr (s suf : String) : Bool :=
  s.data.drop (s.data.length - suf.data.length) == suf.data &&
    decide (suf.data.length ≤ s.data.length)

/-- Python `file.replace('.json', '')`: delete every occurrence of the
substring `".json"`. -/
def stripJsonAll : List Char → List Char
  | '.' :: 'j' :: 's' :: 'o' :: 'n' :: rest => stripJsonAll rest
  | c :: rest => c :: stripJsonAll rest
  | [] => []

/-- Version string derived from a config file name
(`src/miaopacks.py:81`). -/
def jsonStem (s : String) : String := String.mk (stripJsonAll s.data)

/-- The configuration store: each record is a file name together with the
result of reading and JSON-decoding it — `none` models a record that is
unreadable or malformed, where `json.load` raises. -/
abbrev ConfigStore : Type := List (String × Option VersionConfig)

/-- The loader `load_version_configs` (`src/miaopacks.py:75-84`): iterate
the config directory, and for every `.json` file decode it into the
result map.  There is no exception handling here, so a malformed record
makes the whole load raise (modelled as `Except.error` carrying the file
name); no partial result is returned. -/
def load_version_configs : ConfigStore → Except String (List (String × VersionConfig))
  | [] => .ok []
  | (name, content) :: rest =>
    if endsWithStr name ".json" then
      match content with
      | none => .error name
      | some cfg =>
        match load_version_configs rest with
        | .ok cs => .ok ((jsonStem name, cfg) :: cs)
        | .error e => .error e
    else load_version_configs rest

/-- Python `set.add`-style insertion keeping one copy of each version. -/
def addVersion (acc : List String) (v : String) : List String :=
  if v ∈ acc then acc else acc ++ [v]

/-- One iteration of the collection loop of `get_available_versions`
(`src/miaopacks.py:92-101`): a `.json` record that fails to read appends a
diagnostic (the printed error, carried in the first component) and is
skipped; a readable record contributes its `versions` list if it has
one. -/
def collectStep (acc : List String × List String)
    (entry : String × Option VersionConfig) : List String × List String :=
  if endsWithStr entry.1 ".json" then
    match entry.2 with
    | none => (acc.1 ++ [entry.1], acc.2)
    | some cfg =>
      match cfg.versions with
      | some vs => (acc.1, vs.foldl addVersion acc.2)
      | none => acc
  else acc

/-- The sort key of `get_available_versions`
(`src/miaopacks.py:105`): `[int(n) for n in x.replace('1.', '').split('.')]`;
`none` models the `ValueError` Python `int` raises on a non-digit part. -/
def verIntList (v : String) : Option (List Nat) :=
  (splitDot (stripAllOneDot v.data)).mapM fun part =>
    if isDigits part then some (digitsToNat part) else none

/-- Python list `<` on the integer sort keys (lexicographic). -/
def natListLt : List Nat → List Nat → Bool
  | [], [] => false
  | [], _ :: _ => true
  | _ :: _, [] => false
  | x :: xs, y :: ys => if x < y then true else if y < x then false else natListLt xs ys

/-- Insert an element into a descending-by-key list, before the first
element it is not below. -/
def insertByKeyDesc (p : String × List Nat) :
    List (String × List Nat) → List (String × List Nat)
  | [] => [p]
  | q :: qs => if natListLt p.2 q.2 then q :: insertByKeyDesc p qs else p :: q :: qs

/-- Pair every collected version string with its integer sort key, failing
like Python `int()` does if any component is not numeric. -/
def keyAll : List String → Option (List (String × List Nat))
  | [] => some []
  | v :: vs =>
    match verIntList v, keyAll vs with
    | some k, some rest => some ((v, k) :: rest)
    | _, _ => none

/-- Python `sorted(vs, key=..., reverse=True)` on the collected version
strings: compute each key (raising — `none` — on an unparsable version)
and sort descending.  Only membership in the result is reasoned about
below, since the input order is Python set-iteration order, which is
unspecified. -/
def sortVersionsDesc (vs : List String) : Option (List String) :=
  match keyAll vs with
  | some keyed =>
    some ((keyed.foldl (fun acc p => insertByKeyDesc p acc) []).map Prod.fst)
  | none => none

/-- The version enumerator `get_available_versions`
(`src/miaopacks.py:86-106`): collect the `versions` sets of all readable
`.json` records, skipping unreadable records with a printed diagnostic
(first component of the result), and return them sorted descending by
numeric key; the sort itself is outside the `try` and raises on an
unparsable version string. -/
def get_available_versions (store : ConfigStore) :
    List String × Except String (List String) :=
  match sortVersionsDesc (store.foldl collectStep ([], [])).2 with
  | some sorted => ((store.foldl collectStep ([], [])).1, .ok sorted)
  | none => ((store.foldl collectStep ([], [])).1, .error "invalid version string")

/-- Malformed `.json` records of a store — the ones `json.load` raises
on. -/
def countMalformed (store : ConfigStore) : Nat :=
  (store.filter fun e => endsWithStr e.1 ".json" && e.2.isNone).length

lemma load_error_of_malformed :
    ∀ (store : ConfigStore) (badName : String),
      (badName, (none : Option VersionConfig)) ∈ store →
      endsWithStr badName ".json" = true →
      ∃ e, load_version_configs store = .error e := by
  intro store
  induction store with
  | nil => intro badName hmem _; simp at hmem
  | cons entry rest ih =>
    intro badName hmem hjson
    obtain ⟨n, c⟩ := entry
    rcases List.mem_cons.mp hmem with heq | hrest
    · have hn : n = badName := congrArg Prod.fst heq.symm
      have hc : c = none := congrArg Prod.snd heq.symm
      subst hn; subst hc
      refine ⟨n, ?_⟩
      simp only [load_version_configs, hjson, if_true]
    · obtain ⟨e, he⟩ := ih badName hrest hjson
      cases hj : endsWithStr n ".json" with
      | false =>
        refine ⟨e, ?_⟩
        simp only [load_version_configs, hj, Bool.false_eq_true, if_false]
        exact he
      | true =>
        cases c with
        | none =>
          refine ⟨n, ?_⟩
          simp only [load_version_configs, hj, if_true]
        | some cfg =>
          refine ⟨e, ?_⟩
          simp only [load_version_configs, hj, if_true, he]

lemma countMalformed_cons (entry : String × Option VersionConfig)
    (rest : ConfigStore) :
    countMalformed (entry :: rest) =
      (if endsWithStr entry.1 ".json" && entry.2.isNone then 1 else 0) +
        countMalformed rest := by
  unfold countMalformed
  rw [List.filter_cons]
  by_cases h : (endsWithStr entry.1 ".json" && entry.2.isNone) = true
  · rw [if_pos h, if_pos h]
    simp [Nat.add_comm]
  · rw [if_neg h, if_neg h]
    simp

lemma collect_diag_len :
    ∀ (store : ConfigStore) (d vs : List String),
      (store.foldl collectStep (d, vs)).1.length = d.length + countMalformed store := by
  intro store
  induction store with
  | nil => intro d vs; simp [countMalformed]
  | cons entry rest ih =>
    intro d vs
    obtain ⟨n, c⟩ := entry
    rw [List.foldl_cons, countMalformed_cons]
    cases hj : endsWithStr n ".json" with
    | false =>
      have hstep : collectStep (d, vs) (n, c) = (d, vs) := by
        simp only [collectStep, hj, Bool.false_eq_true, if_false]
      rw [hstep, ih]
      simp
    | true =>
      cases c with
      | none =>
        have hstep : collectStep (d, vs) (n, none) = (d ++ [n], vs) := by
          simp only [collectStep, hj, if_true]
        rw [hstep, ih]
        simp only [List.length_append, List.length_singleton, Option.isNone_none,
          Bool.and_true, hj, if_true]
        omega
      | some cfg =>
        cases hv : cfg.versions with
        | none =>
          have hstep : collectStep (d, vs) (n, some cfg) = (d, vs) := by
            simp only [collectStep, hj, if_true, hv]
          rw [hstep, ih]
          simp
        | some vlist =>
          have hstep : collectStep (d, vs) (n, some cfg) =
              (d, vlist.foldl addVersion vs) := by
            simp only [collectStep, hj, if_true, hv]
          rw [hstep, ih]
          simp

lemma gav_fst (store : ConfigStore) :
    (get_available_versions store).1 = (store.foldl collectStep ([], [])).1 := by
  unfold get_available_versions
  cases sortVersionsDesc (store.foldl collectStep ([], [])).2 <;> rfl

lemma addVersion_mem_self (acc : List String) (v : String) : v ∈ addVersion acc v := by
  unfold addVersion
  by_cases h : v ∈ acc
  · rw [if_pos h]; exact h
  · rw [if_neg h]; simp

lemma addVersion_mem_mono {acc : List String} {v : String} (w : String)
    (h : v ∈ acc) : v ∈ addVersion acc w := by
  unfold addVersion
  by_cases hw : w ∈ acc
  · rw [if_pos hw]; exact h
  · rw [if_neg hw]; exact List.mem_append_left _ h

lemma foldl_addVersion_mono :
    ∀ (vs acc : List String) (v : String), v ∈ acc → v ∈ vs.foldl addVersion acc := by
  intro vs
  induction vs with
  | nil => intro acc v h; exact h
  | cons u us ih => intro acc v h; exact ih _ v (addVersion_mem_mono u h)

lemma foldl_addVersion_mem :
    ∀ (vs acc : List String) (v : String), v ∈ vs → v ∈ vs.foldl addVersion acc := by
  intro vs
  induction vs with
  | nil => intro acc v h; simp at h
  | cons u us ih =>
    intro acc v h
    rcases List.mem_cons.mp h with hv | hv
    · subst hv
      exact foldl_addVersion_mono us _ v (addVersion_mem_self acc v)
    · exact ih _ v hv

lemma collect_mem_mono :
    ∀ (store : ConfigStore) (acc : List String × List String) (v : String),
      v ∈ acc.2 → v ∈ (store.foldl collectStep acc).2 := by
  intro store
  induction store with
  | nil => intro acc v h; exact h
  | cons entry rest ih =>
    intro acc v h
    rw [List.foldl_cons]
    refine ih _ v ?_
    obtain ⟨n, c⟩ := entry
    cases hj : endsWithStr n ".json" with
    | false => simpa [collectStep, hj] using h
    | true =>
      cases c with
      | none => simpa [collectStep, hj] using h
      | some cfg =>
        cases hv : cfg.versions with
        | none => simpa [collectStep, hj, hv] using h
        | some vlist =>
          have : (collectStep acc (n, some cfg)).2 = vlist.foldl addVersion acc.2 := by
            simp [collectStep, hj, hv]
          rw [this]
          exact foldl_addVersion_mono vlist acc.2 v h

lemma collect_mem_of_record :
    ∀ (store : ConfigStore) (acc : List String × List String)
      (n : String) (c : VersionConfig) (vs : List String) (v : String),
      (n, some c) ∈ store → endsWithStr n ".json" = true →
      c.versions = some vs → v ∈ vs →
      v ∈ (store.foldl collectStep acc).2 := by
  intro store
  induction store with
  | nil => intro acc n c vs v hmem; simp at hmem
  | cons entry rest ih =>
    intro acc n c vs v hmem hjson hver hv
    rw [List.foldl_cons]
    rcases List.mem_cons.mp hmem with heq | hrest
    · rw [← heq]
      have hstep : (collectStep acc (n, some c)).2 = vs.foldl addVersion acc.2 := by
        simp [collectStep, hjson, hver]
      exact collect_mem_mono rest _ v (by rw [hstep]; exact foldl_addVersion_mem vs acc.2 v hv)
    · exact ih _ n c vs v hrest hjson hver hv

lemma mem_insertByKeyDesc_self (p : String × List Nat) :
    ∀ l, p ∈ insertByKeyDesc p l := by
  intro l
  induction l with
  | nil => simp [insertByKeyDesc]
  | cons q qs ih =>
    unfold insertByKeyDesc
    by_cases h : natListLt p.2 q.2 = true
    · rw [if_pos h]; exact List.mem_cons_of_mem q ih
    · rw [if_neg h]; exact List.mem_cons_self _ _

lemma mem_insertByKeyDesc_of_mem (p x : String × List Nat) :
    ∀ l, x ∈ l → x ∈ insertByKeyDesc p l := by
  intro l
  induction l with
  | nil => intro h; simp at h
  | cons q qs ih =>
    intro h
    unfold insertByKeyDesc
    by_cases hlt : natListLt p.2 q.2 = true
    · rw [if_pos hlt]
      rcases List.mem_cons.mp h with hq | hqs
      · subst hq; exact List.mem_cons_self _ _
      · exact List.mem_cons_of_mem q (ih hqs)
    · rw [if_neg hlt]
      exact List.mem_cons_of_mem p h

lemma foldl_insert_mem :
    ∀ (l acc : List (String × List Nat)) (p : String × List Nat),
      p ∈ l ∨ p ∈ acc →
      p ∈ l.foldl (fun acc q => insertByKeyDesc q acc) acc := by
  intro l
  induction l with
  | nil =>
    intro acc p h
    rcases h with h | h
    · simp at h
    · exact h
  | cons q qs ih =>
    intro acc p h
    rw [List.foldl_cons]
    rcases h with h | h
    · rcases List.mem_cons.mp h with hq | hqs
      · subst hq
        exact ih _ p (Or.inr (mem_insertByKeyDesc_self p acc))
      · exact ih _ p (Or.inl hqs)
    · exact ih _ p (Or.inr (mem_insertByKeyDesc_of_mem q p acc h))

lemma keyAll_mem :
    ∀ (vs : List String) (keyed : List (String × List Nat)) (v : String),
      keyAll vs = some keyed → v ∈ vs → ∃ k, (v, k) ∈ keyed := by
  intro vs
  induction vs with
  | nil => intro keyed v _ hv; simp at hv
  | cons u us ih =>
    intro keyed v h hv
    simp only [keyAll] at h
    cases hk : verIntList u with
    | none => rw [hk] at h; exact absurd h (by simp)
    | some k =>
      cases hr : keyAll us with
      | none => rw [hk, hr] at h; exact absurd h (by simp)
      | some rest =>
        rw [hk, hr] at h
        simp only [Option.some.injEq] at h
        subst h
        rcases List.mem_cons.mp hv with huv | husv
        · subst huv; exact ⟨k, List.mem_cons_self _ _⟩
        · obtain ⟨k', hk'⟩ := ih rest v hr husv
          exact ⟨k', List.mem_cons_of_mem _ hk'⟩

lemma sortVersionsDesc_mem {vs sorted : List String} {v : String}
    (h : sortVersionsDesc vs = some sorted) (hv : v ∈ vs) : v ∈ sorted := by
  unfold sortVersionsDesc at h
  cases hk : keyAll vs with
  | none => rw [hk] at h; exact absurd h (by simp)
  | some keyed =>
    rw [hk] at h
    simp only [Option.some.injEq] at h
    subst h
    obtain ⟨k, hmem⟩ := keyAll_mem vs keyed v hk hv
    exact List.mem_map_of_mem Prod.fst (foldl_insert_mem keyed [] (v, k) (Or.inl hmem))

/-- The config store used by the C4 counterexample and witness: one
malformed record followed by one well-formed record declaring version
1.21. -/
def storeC4 : ConfigStore :=
  [("bad.json", none), ("good.json", some { versions := some ["1.21"] })]

/-- C4 counterexample: with a malformed record in the store,
`load_version_configs` aborts the whole load — it raises (models as an
error) instead of skipping the record, and no well-formed record is
returned. -/
theorem load_aborts_on_malformed :
    load_version_configs storeC4 = .error "bad.json" ∧
    ∀ cs, load_version_configs storeC4 ≠ .ok cs := by
  have h : load_version_configs storeC4 = .error "bad.json" := rfl
  refine ⟨h, ?_⟩
  intro cs hcs
  rw [h] at hcs
  exact Except.noConfusion hcs

/-- C4 amended: loading all version configs (`load_version_configs`)
aborts on the first malformed record — no diagnostic, no partial result;
it is only the version enumerator (`get_available_versions`) that skips a
malformed record, emits one diagnostic per skipped record, and still
returns every version declared by a well-formed record. -/
theorem registry_malformed_record_handling (store : ConfigStore) (badName : String)
    (hbad : (badName, (none : Option VersionConfig)) ∈ store)
    (hjson : endsWithStr badName ".json" = true) :
    (∃ e, load_version_configs store = .error e) ∧
    (get_available_versions store).1.length = countMalformed store ∧
    0 < countMalformed store ∧
    (∀ sorted, (get_available_versions store).2 = .ok sorted →
      ∀ n c vs v, (n, some c) ∈ store → endsWithStr n ".json" = true →
        c.versions = some vs → v ∈ vs → v ∈ sorted) := by
  refine ⟨load_error_of_malformed store badName hbad hjson, ?_, ?_, ?_⟩
  · rw [gav_fst, collect_diag_len]
    simp
  · have hmf : (badName, (none : Option VersionConfig)) ∈
        store.filter fun e => endsWithStr e.1 ".json" && e.2.isNone :=
      List.mem_filter.mpr ⟨hbad, by simp [hjson]⟩
    exact List.length_pos.mpr (List.ne_nil_of_mem hmf)
  · intro sorted hsorted n c vs v hmem hjson' hver hv
    unfold get_available_versions at hsorted
    cases hs : sortVersionsDesc (store.foldl collectStep ([], [])).2 with
    | none => rw [hs] at hsorted; exact absurd hsorted (by simp)
    | some s =>
      rw [hs] at hsorted
      simp only [Except.ok.injEq] at hsorted
      subst hsorted
      exact sortVersionsDesc_mem hs
        (collect_mem_of_record store ([], []) n c vs v hmem hjson' hver hv)

/-- Witness for the amended C4 statement at the concrete store with one
malformed and one well-formed record. -/
theorem registry_malformed_record_handling_witness :
    (∃ e, load_version_configs storeC4 = .error e) ∧
    (get_available_versions storeC4).1.length = countMalformed storeC4 ∧
    0 < countMalformed storeC4 ∧
    (∀ sorted, (get_available_versions storeC4).2 = .ok sorted →
      ∀ n c vs v, (n, some c) ∈ storeC4 → endsWithStr n ".json" = true →
        c.versions = some vs → v ∈ vs → v ∈ sorted) :=
  registry_malformed_record_handling storeC4 "bad.json" (by decide) (by decide)

/-- Filesystem effect state tracked across a conversion run: whether the
temporary conversion directory (`packagecache/temp_convert`) currently
exists. -/
structure FSState where
  tempExists : Bool
deriving DecidableEq, Repr

/-- A step of the conversion run: consumes the state and yields either a
result or a raised exception, together with the state its side effects
left behind (an exception does not roll state back). -/
def ConvM (α : Type) : Type := FSState → Except String α × FSState

def pureM {α : Type} (a : α) : ConvM α := fun s => (.ok a, s)

def bindM {α β : Type} (x : ConvM α) (f : α → ConvM β) : ConvM β := fun s =>
  match x s with
  | (.ok a, s') => f a s'
  | (.error e, s') => (.error e, s')

/-- Python `try ... finally`: the cleanup runs whether the body returned
or raised; a cleanup exception replaces the body's result. -/
def tryFinallyM {α : Type} (body : ConvM α) (cleanup : ConvM Unit) : ConvM α :=
  fun s =>
    let r := body s
    let rc := cleanup r.2
    ((match rc.1 with
      | .ok _ => r.1
      | .error e => .error e), rc.2)

/-- Python `try ... except Exception`: a raised exception is passed to the
handler. -/
def tryExceptM {α : Type} (body : ConvM α) (handler : String → ConvM α) : ConvM α :=
  fun s =>
    match body s with
    | (.ok a, s') => (.ok a, s')
    | (.error e, s') => handler e s'

/-- Python `if os.path.exists(temp_dir): shutil.rmtree(temp_dir)`
(`src/miaopacks.py:914-915` before the try, and `993-994` in the
finally): afterwards the temporary directory does not exist. -/
def removeTempIfAny : ConvM Unit := fun _ => (.ok (), ⟨false⟩)

/-- `shutil.copytree(source_path, temp_dir)` (`src/miaopacks.py:919`): it
creates the temporary directory (possibly partially) and may raise. -/
def copyTreeStep (fail : Bool) : ConvM Unit := fun _ =>
  if fail then (.error "copytree failed", ⟨true⟩) else (.ok (), ⟨true⟩)

/-- The metadata rewrite (`src/miaopacks.py:926-947`); `json.load` may
raise on an undecodable metadata file. -/
def mcmetaStep (fail : Bool) : ConvM Unit := fun s =>
  if fail then (.error "mcmeta rewrite failed", s) else (.ok (), s)

/-- `process_version_conversion` (`src/miaopacks.py:954`): catches its own
exceptions and reports success as a flag. -/
def processStep (ok : Bool) : ConvM Bool := pureM ok

/-- The save-file dialog (`src/miaopacks.py:961-965`): the user may cancel
(`none`). -/
def saveDialogStep (choice : Option String) : ConvM (Option String) := pureM choice

/-- Writing the archive (`src/miaopacks.py:969-978`); file I/O may
raise. -/
def zipStep (fail : Bool) : ConvM Unit := fun s =>
  if fail then (.error "zip write failed", s) else (.ok (), s)

/-- The `except` handler (`src/miaopacks.py:987-989`): shows the error
dialog and swallows the exception. -/
def errorDialogStep : ConvM Unit := pureM ()

/-- The control-flow skeleton of `on_confirm` (`src/miaopacks.py:903-994`):
pre-clean any stale temporary directory, then inside
`try ... except ... finally` copy the pack, rewrite the metadata, run the
conversion, optionally ask for a save path and write the archive; the
finally clause removes the temporary directory. -/
def onConfirmRun (copyFail mcFail procOk zipFail : Bool)
    (saveChoice : Option String) : ConvM Unit :=
  bindM removeTempIfAny fun _ =>
    tryFinallyM
      (tryExceptM
        (bindM (copyTreeStep copyFail) fun _ =>
          bindM (mcmetaStep mcFail) fun _ =>
            bindM (processStep procOk) fun ok =>
              if ok then
                bindM (saveDialogStep saveChoice) fun choice =>
                  match choice with
                  | some _ => bindM (zipStep zipFail) fun _ => pureM ()
                  | none => pureM ()
              else pureM ())
        fun _ => errorDialogStep)
      removeTempIfAny

/-- C9: on every exit path of a conversion run — successful packaging,
caught processing error at any stage (copy, metadata rewrite, archive
write), conversion reported failed, or save dialog cancelled — the
temporary working directory no longer exists when `on_confirm` returns,
because the `finally` clause removes it unconditionally. -/
theorem temp_dir_removed_on_all_paths (copyFail mcFail procOk zipFail : Bool)
    (saveChoice : Option String) (s : FSState) :
    ((onConfirmRun copyFail mcFail procOk zipFail saveChoice) s).2.tempExists =
      false := rfl

end Miaopacks
